import Mathlib

/-!
Verification development for the Version Oracle (GRV master) of this
repository.  The scaffold's `main.rs` declares the `flow` and `fdbserver`
modules but their code is not present under `src/`, so every component of
the oracle (Version Counter, Recovery Coordinator, Batching Issuer, Rate
Governor, Lease Monitor) is modelled from the specification's words; the
only code embedded from source is `main` itself.
-/

namespace GrvOracle

/-- Modelled from the spec: the inclusive version range returned by
`Version Counter.advance` (§4.2). -/
structure VersionRange where
  first : Nat
  last : Nat
deriving DecidableEq

/-- Modelled from the spec: the error taxonomy of §7 — `RecoveryIncomplete`,
`Fenced`, `NotYetServing`, `Timeout`. -/
inductive OErr where
  | Fenced
  | RecoveryIncomplete
  | NotYetServing
  | Timeout
deriving DecidableEq

/-- Modelled from the spec: the Epoch Ticket `{epoch, lease_expiry}` (§3),
the credential proving the exclusive right to mint versions for one epoch. -/
structure EpochTicket where
  epoch : Nat
  lease_expiry : Nat
deriving DecidableEq

/-- Modelled from the spec: the Version Counter's mutable state, a single
integer of a width wide enough that exhaustion is not a practical concern
(modelled as `Nat`). -/
structure Counter where
  value : Nat
deriving DecidableEq

/-- Modelled from the spec: "every version-advancing action must check the
ticket has not expired" (§3). -/
def ticketValid (t : EpochTicket) (now : Nat) : Bool :=
  now < t.lease_expiry

/-- Modelled from the spec (§4.2): `advance(requested_span)` is callable
only while holding a currently-valid Epoch Ticket; it increments the
counter by `requested_span` and returns the resulting inclusive range.
A call without a valid ticket fails with `Fenced` and leaves the counter
untouched; the pair returned is (call result, counter state after the
call). -/
def advance (t : EpochTicket) (now : Nat) (st : Counter) (requested_span : Nat) :
    Except OErr VersionRange × Counter :=
  if ticketValid t now then
    (Except.ok ⟨st.value + 1, st.value + requested_span⟩,
     ⟨st.value + requested_span⟩)
  else
    (Except.error OErr.Fenced, st)

/-- Modelled from the spec (§4.2): before the first `advance` in a new
epoch the counter is seeded from `RecoveryState.recovered_version_floor`;
the larger of the current value and the floor always wins. -/
def seedCounter (st : Counter) (floor : Nat) : Counter :=
  ⟨max st.value floor⟩

/-- Modelled from the spec: the transient `RecoveryState`
`{last_known_committed_version, recovered_version_floor}` (§3). -/
structure RecoveryState where
  last_known_committed_version : Nat
  recovered_version_floor : Nat
deriving DecidableEq

/-- Modelled from the spec (§4.1): `recover(epoch)` queries the log
servers for their highest durably acknowledged version, takes the maximum
and adds a configurable safety margin to produce
`recovered_version_floor`; it fails with `RecoveryIncomplete` when an
insufficient quorum of logs responds.  `responses` lists the
`highest_durable_version` values of the logs that responded within the
bounded timeout. -/
def recover (epoch : Nat) (responses : List Nat) (quorum : Nat)
    (safetyMargin : Nat) : Except OErr RecoveryState :=
  if responses.length < quorum then
    Except.error OErr.RecoveryIncomplete
  else
    let m := responses.foldl max 0
    Except.ok ⟨m, m + safetyMargin⟩

/-- Modelled from the spec: a `VersionRequest` `{request_id, arrival_time}`
(§3), created by a caller and consumed by the Batching Issuer. -/
structure VersionRequest where
  request_id : Nat
  arrival_time : Nat
deriving DecidableEq

/-- Modelled from the spec: the oracle-wide state machine
`Recovering → Serving → Fenced (terminal)` (§4.5). -/
inductive OracleMode where
  | Recovering
  | Serving
  | Fenced
deriving DecidableEq

/-- Modelled from the spec: the serving loop's state — the oracle mode, the
Version Counter's current value, and the batch of pending requests
collected within the current batching window. -/
structure OracleState where
  mode : OracleMode
  counter : Nat
  pending : List VersionRequest
deriving DecidableEq

/-- Observable events of the oracle: a counter advance, a request resolved
with a version, a request rejected with an error, and the fencing
transition. -/
inductive Ev where
  | advanced (span : Nat) (range : VersionRange)
  | resolved (request_id : Nat) (version : Nat)
  | rejected (request_id : Nat) (e : OErr)
  | fencedNow
deriving DecidableEq

/-- Commands driving the oracle's serving loop: a request arrives, a
batching window closes (`allow` is the Rate Governor's admission verdict
consulted before closing the window, §4.5), and a lease-renewal cycle of
the Lease Monitor completes with outcome `ok` (§4.4). -/
inductive Cmd where
  | submit (req : VersionRequest)
  | closeWindow (allow : Bool)
  | renewLease (ok : Bool)
deriving DecidableEq

/-- Modelled from the spec (§4.3): resolve the members of a batch with
distinct consecutive slots drawn from the range that starts right above
`base` (the counter value before the batch's advance). -/
def resolveSlots (base : Nat) : List VersionRequest → List Ev
  | [] => []
  | r :: rs => Ev.resolved r.request_id (base + 1) :: resolveSlots (base + 1) rs

/-- Modelled from the spec (§4.3–§4.5): one step of the serving loop.
A request arriving while Serving joins the pending batch; while Recovering
it is rejected with `NotYetServing`; while Fenced with `Fenced`.  When a
window closes with admission granted and a non-empty batch, the counter
advances exactly once by the batch size and every member resolves with a
slot from the returned range; with admission denied the batch is delayed,
not dropped.  A failed lease renewal fences the oracle: the state becomes
`Fenced` and every pending request is rejected with `Fenced`. -/
def step (st : OracleState) (c : Cmd) : OracleState × List Ev :=
  match c with
  | Cmd.submit req =>
    match st.mode with
    | OracleMode.Serving => ({ st with pending := st.pending ++ [req] }, [])
    | OracleMode.Recovering =>
        (st, [Ev.rejected req.request_id OErr.NotYetServing])
    | OracleMode.Fenced => (st, [Ev.rejected req.request_id OErr.Fenced])
  | Cmd.closeWindow allow =>
    match st.mode with
    | OracleMode.Serving =>
      if allow && !st.pending.isEmpty then
        ({ st with counter := st.counter + st.pending.length, pending := [] },
         Ev.advanced st.pending.length
             ⟨st.counter + 1, st.counter + st.pending.length⟩ ::
           resolveSlots st.counter st.pending)
      else (st, [])
    | _ => (st, [])
  | Cmd.renewLease ok =>
    if ok then (st, [])
    else
      match st.mode with
      | OracleMode.Fenced => (st, [])
      | _ =>
        ({ st with mode := OracleMode.Fenced, pending := [] },
         Ev.fencedNow ::
           st.pending.map (fun r => Ev.rejected r.request_id OErr.Fenced))

/-- Run the serving loop over a command list, collecting the event trace. -/
def runOracle (st : OracleState) : List Cmd → OracleState × List Ev
  | [] => (st, [])
  | c :: cs =>
    let p := step st c
    let q := runOracle p.1 cs
    (q.1, p.2 ++ q.2)

/-- The version carried by a `resolved` event, if any. -/
def issuedOf : Ev → Option Nat
  | Ev.resolved _ v => some v
  | _ => none

/-- The successfully issued versions of a trace, in issuance order. -/
def issuedVersions (evs : List Ev) : List Nat :=
  evs.filterMap issuedOf

/-- Whether an event is a counter advance. -/
def isAdvanceEv : Ev → Bool
  | Ev.advanced _ _ => true
  | _ => false

/-- Modelled from the spec (§4.1–§4.2): a multi-epoch cluster run.  Each
epoch is a pair (safety margin, serving-phase commands).  `durable` is the
highest durably acknowledged version the log servers report; recovery for
a new epoch computes the floor as that maximum plus the epoch's safety
margin and seeds the counter from it.  Per §4.2's durability requirement,
recovery on the next epoch computes a floor at least as high as the
progress the previous epoch disclosed, so the durable high-water mark
carried forward is the larger of the old mark and the epoch's final
counter. -/
def clusterRun (durable : Nat) : List (Nat × List Cmd) → Nat × List Ev
  | [] => (durable, [])
  | ep :: rest =>
    let p := runOracle ⟨OracleMode.Serving, durable + ep.1, []⟩ ep.2
    let q := clusterRun (max durable p.1.counter) rest
    (q.1, p.2 ++ q.2)

end GrvOracle

namespace MainProg

/-- Events observable in `main` (src/rust/src/main.rs): the call to
`fdbserver::grv_master::foo()`, the awaited `flow::hello()`, and a
`println!`. -/
inductive MainEv where
  | callFoo
  | awaitHello
  | printed (s : String)
deriving DecidableEq

/-- Shallow embedding of `main` (src/rust/src/main.rs, lines 4–11).  The
bodies of `flow::hello` and `fdbserver::grv_master::foo` are not under
`src/`, so `main` is embedded parametrically in the value `flow::hello()`
resolves to, and `foo()` is a unit-returning call recorded as an event.
`main` first calls `foo()`, then awaits `hello()` and propagates its error
with `?`; on success it prints "Goodbye, cruel world!" and returns
`Ok(())`. -/
def mainRun {ε : Type} (helloResult : Except ε Unit) :
    Except ε Unit × List MainEv :=
  match helloResult with
  | Except.ok _ =>
    (Except.ok (),
     [MainEv.callFoo, MainEv.awaitHello,
      MainEv.printed "Goodbye, cruel world!"])
  | Except.error e =>
    (Except.error e, [MainEv.callFoo, MainEv.awaitHello])

end MainProg

namespace GrvOracle

/-- Helper: the left fold of `max` dominates its initial value. -/
theorem init_le_foldl_max (l : List Nat) (a : Nat) : a ≤ l.foldl max a := by
  induction l generalizing a with
  | nil => exact le_refl a
  | cons x xs ih => exact le_trans (le_max_left a x) (ih (max a x))

/-- Helper: the left fold of `max` dominates every list element. -/
theorem le_foldl_max (l : List Nat) (a : Nat) (v : Nat) (hv : v ∈ l) :
    v ≤ l.foldl max a := by
  induction l generalizing a with
  | nil => cases hv
  | cons x xs ih =>
    rcases List.mem_cons.mp hv with h | h
    · subst h
      exact le_trans (le_max_right a v) (init_le_foldl_max xs (max a v))
    · exact ih (max a x) h

/-- C5: for every `advance(requested_span)` call made while holding a
currently valid Epoch Ticket, the counter's value increases by exactly
`requested_span` and the call returns the resulting inclusive range; and
for every call whatsoever the counter value never decreases (and, the
counter being a `Nat`, never wraps around). -/
theorem advance_exact_span :
    (∀ (t : EpochTicket) (now : Nat) (st : Counter) (span : Nat),
      ticketValid t now = true →
        advance t now st span =
          (Except.ok ⟨st.value + 1, st.value + span⟩, ⟨st.value + span⟩)) ∧
    (∀ (t : EpochTicket) (now : Nat) (st : Counter) (span : Nat),
      st.value ≤ (advance t now st span).2.value) := by
  constructor
  · intro t now st span h
    simp [advance, h]
  · intro t now st span
    by_cases h : ticketValid t now = true
    · simp [advance, h]
    · simp [advance, h]

/-- Witness for C5: a concrete valid-ticket call advances by its span. -/
theorem advance_exact_span_witness :
    advance ⟨1, 10⟩ 3 ⟨100⟩ 5 = (Except.ok ⟨101, 105⟩, ⟨105⟩) ∧
    (100 : Nat) ≤ (advance ⟨1, 10⟩ 3 ⟨100⟩ 5).2.value :=
  ⟨advance_exact_span.1 ⟨1, 10⟩ 3 ⟨100⟩ 5 (by decide),
   advance_exact_span.2 ⟨1, 10⟩ 3 ⟨100⟩ 5⟩

/-- C7: every failing `advance` call leaves the Version Counter state
unchanged — a failed advance never partially applies its increment. -/
theorem failed_advance_leaves_state :
    ∀ (t : EpochTicket) (now : Nat) (st : Counter) (span : Nat) (e : OErr),
      (advance t now st span).1 = Except.error e →
        (advance t now st span).2 = st := by
  intro t now st span e h
  by_cases hv : ticketValid t now = true
  · simp [advance, hv] at h
  · simp [advance, hv]

/-- Witness for C7: a call with an expired ticket fails and leaves the
counter at its prior value. -/
theorem failed_advance_leaves_state_witness :
    (advance ⟨1, 10⟩ 20 ⟨100⟩ 5).1 = Except.error OErr.Fenced ∧
    (advance ⟨1, 10⟩ 20 ⟨100⟩ 5).2 = (⟨100⟩ : Counter) :=
  ⟨rfl, failed_advance_leaves_state ⟨1, 10⟩ 20 ⟨100⟩ 5 OErr.Fenced rfl⟩

/-- C6: seeding the Version Counter is idempotent — re-seeding with the
same or a smaller floor is a no-op — and in general re-running recovery
seeding always yields the larger of the competing floor values. -/
theorem seed_idempotent_max_wins :
    (∀ (st : Counter) (f g : Nat), g ≤ f →
      seedCounter (seedCounter st f) g = seedCounter st f) ∧
    (∀ (st : Counter) (f g : Nat),
      seedCounter (seedCounter st f) g = seedCounter st (max f g)) := by
  constructor
  · intro st f g h
    simp only [seedCounter, Counter.mk.injEq]
    omega
  · intro st f g
    simp only [seedCounter, Counter.mk.injEq]
    omega

/-- Witness for C6: seeding `{value := 7}` with floor 12 and then
re-seeding with the smaller floor 9 changes nothing. -/
theorem seed_idempotent_max_wins_witness :
    seedCounter (seedCounter ⟨7⟩ 12) 9 = seedCounter ⟨7⟩ 12 ∧
    seedCounter (seedCounter ⟨7⟩ 12) 9 = seedCounter ⟨7⟩ (max 12 9) :=
  ⟨seed_idempotent_max_wins.1 ⟨7⟩ 12 9 (by decide),
   seed_idempotent_max_wins.2 ⟨7⟩ 12 9⟩

/-- C4: with a sufficient quorum of log-server responses, `recover`
returns a `RecoveryState` whose `recovered_version_floor` equals the
maximum of the reported highest durably acknowledged versions plus the
safety margin; hence the floor is at least each reported version plus the
margin. -/
theorem recover_floor_is_max_plus_margin :
    ∀ (epoch : Nat) (responses : List Nat) (quorum margin : Nat),
      quorum ≤ responses.length →
        recover epoch responses quorum margin =
          Except.ok ⟨responses.foldl max 0, responses.foldl max 0 + margin⟩ ∧
        ∀ v ∈ responses, v + margin ≤ responses.foldl max 0 + margin := by
  intro epoch responses quorum margin h
  constructor
  · simp [recover, Nat.not_lt.mpr h]
  · intro v hv
    exact Nat.add_le_add_right (le_foldl_max responses 0 v hv) margin

/-- Witness for C4: with logs reporting durable versions {10, 12, 7},
quorum 2 and safety margin 5, recovery returns floor 12 + 5 = 17, which is
at least 12 + 5. -/
theorem recover_floor_is_max_plus_margin_witness :
    recover 3 [10, 12, 7] 2 5 = Except.ok ⟨12, 17⟩ ∧
    (12 : Nat) + 5 ≤ [10, 12, 7].foldl max 0 + 5 := by
  have h := recover_floor_is_max_plus_margin 3 [10, 12, 7] 2 5 (by decide)
  exact ⟨by simpa using h.1, h.2 12 (by decide)⟩

/-- C8: `recover` fails with `RecoveryIncomplete` if and only if an
insufficient quorum of log servers responded; on that failure no
`RecoveryState` is produced. -/
theorem recover_incomplete_iff_no_quorum :
    ∀ (epoch : Nat) (responses : List Nat) (quorum margin : Nat),
      (recover epoch responses quorum margin =
        Except.error OErr.RecoveryIncomplete ↔ responses.length < quorum) ∧
      (responses.length < quorum →
        ∀ rs : RecoveryState,
          recover epoch responses quorum margin ≠ Except.ok rs) := by
  intro epoch responses quorum margin
  constructor
  · constructor
    · intro h
      by_contra hq
      simp [recover, hq] at h
    · intro h
      simp [recover, h]
  · intro h rs
    simp [recover, h]

/-- Witness for C8: one responding log out of a required quorum of two
makes recovery fail with `RecoveryIncomplete` and produce no state. -/
theorem recover_incomplete_iff_no_quorum_witness :
    (recover 3 [10] 2 5 = Except.error OErr.RecoveryIncomplete ↔
      [10].length < 2) ∧
    recover 3 [10] 2 5 ≠ Except.ok ⟨10, 15⟩ :=
  ⟨(recover_incomplete_iff_no_quorum 3 [10] 2 5).1,
   (recover_incomplete_iff_no_quorum 3 [10] 2 5).2 (by decide) ⟨10, 15⟩⟩

end GrvOracle

namespace GrvOracle

/-- Helper: `issuedVersions` distributes over a cons of `resolveSlots`. -/
theorem issuedVersions_resolveSlots_cons (r : VersionRequest)
    (rs : List VersionRequest) (base : Nat) :
    issuedVersions (resolveSlots base (r :: rs)) =
      (base + 1) :: issuedVersions (resolveSlots (base + 1) rs) := by
  simp [resolveSlots, issuedVersions, issuedOf]

/-- Helper: versions handed out by `resolveSlots` lie strictly above `base`
and at most `base + reqs.length`. -/
theorem resolveSlots_bounds (reqs : List VersionRequest) (base : Nat) :
    ∀ v ∈ issuedVersions (resolveSlots base reqs),
      base < v ∧ v ≤ base + reqs.length := by
  induction reqs generalizing base with
  | nil =>
    intro v hv
    simp [resolveSlots, issuedVersions] at hv
  | cons r rs ih =>
    intro v hv
    rw [issuedVersions_resolveSlots_cons] at hv
    rcases List.mem_cons.mp hv with h | h
    · subst h
      rw [List.length_cons]
      omega
    · obtain ⟨h1, h2⟩ := ih (base + 1) v h
      rw [List.length_cons]
      omega

/-- Helper: the versions a batch hands out are strictly increasing. -/
theorem resolveSlots_pairwise (reqs : List VersionRequest) (base : Nat) :
    (issuedVersions (resolveSlots base reqs)).Pairwise (· < ·) := by
  induction reqs generalizing base with
  | nil => simp [resolveSlots, issuedVersions]
  | cons r rs ih =>
    rw [issuedVersions_resolveSlots_cons]
    refine List.Pairwise.cons ?_ (ih (base + 1))
    intro v hv
    exact (resolveSlots_bounds rs (base + 1) v hv).1

/-- Helper: every batch member resolves with a slot from the range. -/
theorem resolveSlots_mem (reqs : List VersionRequest) (base : Nat) :
    ∀ r ∈ reqs, ∃ v,
      Ev.resolved r.request_id v ∈ resolveSlots base reqs ∧
      base + 1 ≤ v ∧ v ≤ base + reqs.length := by
  induction reqs generalizing base with
  | nil =>
    intro r hr
    cases hr
  | cons x xs ih =>
    intro r hr
    rcases List.mem_cons.mp hr with h | h
    · subst h
      refine ⟨base + 1, List.mem_cons_self _ _, le_refl _, ?_⟩
      rw [List.length_cons]
      omega
    · obtain ⟨v, hv, h1, h2⟩ := ih (base + 1) r h
      refine ⟨v, List.mem_cons_of_mem _ hv, by omega, ?_⟩
      rw [List.length_cons]
      omega

/-- Helper: a batch resolution emits no `advanced` event of its own. -/
theorem resolveSlots_no_advance (reqs : List VersionRequest) (base : Nat) :
    (resolveSlots base reqs).countP isAdvanceEv = 0 := by
  induction reqs generalizing base with
  | nil => rfl
  | cons r rs ih =>
    simp [resolveSlots, List.countP_cons, isAdvanceEv, ih (base + 1)]

/-- Helper: rejection events carry no issued version. -/
theorem issuedVersions_rejected_map (reqs : List VersionRequest) :
    issuedVersions
      (reqs.map (fun r => Ev.rejected r.request_id OErr.Fenced)) = [] := by
  induction reqs with
  | nil => rfl
  | cons r rs ih => simpa [issuedVersions, issuedOf] using ih

/-- Helper: rejection events carry no issued version, composed form. -/
theorem filterMap_comp_rejected (reqs : List VersionRequest) :
    List.filterMap (issuedOf ∘ fun r => Ev.rejected r.request_id OErr.Fenced)
      reqs = [] := by
  induction reqs with
  | nil => rfl
  | cons r rs ih =>
    simp only [List.filterMap_cons, Function.comp, issuedOf]
    exact ih

/-- Helper: one serving-loop step issues strictly increasing versions, all
strictly above the prior counter and at most the new counter, and the
counter never decreases. -/
theorem step_issued (st : OracleState) (c : Cmd) :
    (issuedVersions (step st c).2).Pairwise (· < ·) ∧
    (∀ v ∈ issuedVersions (step st c).2,
      st.counter < v ∧ v ≤ (step st c).1.counter) ∧
    st.counter ≤ (step st c).1.counter := by
  cases c with
  | submit req =>
    cases hm : st.mode <;> simp [step, hm, issuedVersions, issuedOf]
  | closeWindow allow =>
    cases hm : st.mode with
    | Serving =>
      by_cases h : (allow && !st.pending.isEmpty) = true
      · have hstep : step st (Cmd.closeWindow allow) =
            ({ st with counter := st.counter + st.pending.length,
                       pending := [] },
             Ev.advanced st.pending.length
                 ⟨st.counter + 1, st.counter + st.pending.length⟩ ::
               resolveSlots st.counter st.pending) := by
          simp [step, hm, h]
        rw [hstep]
        have hiss : issuedVersions
            (Ev.advanced st.pending.length
                ⟨st.counter + 1, st.counter + st.pending.length⟩ ::
              resolveSlots st.counter st.pending) =
            issuedVersions (resolveSlots st.counter st.pending) := by
          simp [issuedVersions, issuedOf]
        refine ⟨?_, ?_, ?_⟩
        · rw [hiss]
          exact resolveSlots_pairwise st.pending st.counter
        · intro v hv
          rw [hiss] at hv
          exact resolveSlots_bounds st.pending st.counter v hv
        · exact Nat.le_add_right _ _
      · simp [step, hm, h, issuedVersions]
    | Recovering => simp [step, hm, issuedVersions]
    | Fenced => simp [step, hm, issuedVersions]
  | renewLease ok =>
    cases ok with
    | true => simp [step, issuedVersions]
    | false =>
      cases hm : st.mode with
      | Fenced => simp [step, hm, issuedVersions]
      | Recovering =>
        simp [step, hm, issuedVersions, issuedOf, filterMap_comp_rejected]
      | Serving =>
        simp [step, hm, issuedVersions, issuedOf, filterMap_comp_rejected]

/-- Helper: a whole serving-loop run issues strictly increasing versions,
all strictly above the starting counter and at most the final counter, and
the counter never decreases. -/
theorem runOracle_issued (cmds : List Cmd) (st : OracleState) :
    (issuedVersions (runOracle st cmds).2).Pairwise (· < ·) ∧
    (∀ v ∈ issuedVersions (runOracle st cmds).2,
      st.counter < v ∧ v ≤ (runOracle st cmds).1.counter) ∧
    st.counter ≤ (runOracle st cmds).1.counter := by
  induction cmds generalizing st with
  | nil => simp [runOracle, issuedVersions]
  | cons c cs ih =>
    obtain ⟨h1, h2, h3⟩ := step_issued st c
    obtain ⟨g1, g2, g3⟩ := ih (step st c).1
    have hr : runOracle st (c :: cs) =
        ((runOracle (step st c).1 cs).1,
         (step st c).2 ++ (runOracle (step st c).1 cs).2) := rfl
    rw [hr]
    refine ⟨?_, ?_, le_trans h3 g3⟩
    · rw [issuedVersions, List.filterMap_append]
      rw [List.pairwise_append]
      exact ⟨h1, g1, fun a ha b hb =>
        lt_of_le_of_lt (h2 a ha).2 (g2 b hb).1⟩
    · intro v hv
      rw [issuedVersions, List.filterMap_append] at hv
      rcases List.mem_append.mp hv with h | h
      · exact ⟨(h2 v h).1, le_trans (h2 v h).2 g3⟩
      · exact ⟨lt_of_le_of_lt h3 (g2 v h).1, (g2 v h).2⟩

/-- Helper: a multi-epoch cluster run issues strictly increasing versions,
all strictly above the starting durable mark and at most the final durable
mark, which never decreases. -/
theorem clusterRun_issued (epochs : List (Nat × List Cmd)) (durable : Nat) :
    (issuedVersions (clusterRun durable epochs).2).Pairwise (· < ·) ∧
    (∀ v ∈ issuedVersions (clusterRun durable epochs).2,
      durable < v ∧ v ≤ (clusterRun durable epochs).1) ∧
    durable ≤ (clusterRun durable epochs).1 := by
  induction epochs generalizing durable with
  | nil => simp [clusterRun, issuedVersions]
  | cons ep rest ih =>
    obtain ⟨h1, h2, h3⟩ :=
      runOracle_issued ep.2 ⟨OracleMode.Serving, durable + ep.1, []⟩
    obtain ⟨g1, g2, g3⟩ := ih
      (max durable
        (runOracle ⟨OracleMode.Serving, durable + ep.1, []⟩ ep.2).1.counter)
    have hc : clusterRun durable (ep :: rest) =
        ((clusterRun (max durable
            (runOracle ⟨OracleMode.Serving, durable + ep.1, []⟩ ep.2).1.counter)
            rest).1,
         (runOracle ⟨OracleMode.Serving, durable + ep.1, []⟩ ep.2).2 ++
           (clusterRun (max durable
             (runOracle ⟨OracleMode.Serving, durable + ep.1, []⟩ ep.2).1.counter)
             rest).2) := rfl
    rw [hc]
    have hcnt : (⟨OracleMode.Serving, durable + ep.1, []⟩ : OracleState).counter
        = durable + ep.1 := rfl
    refine ⟨?_, ?_, ?_⟩
    · rw [issuedVersions, List.filterMap_append, List.pairwise_append]
      refine ⟨h1, g1, fun a ha b hb => ?_⟩
      have hb2 := (g2 b hb).1
      have ha2 := (h2 a ha).2
      rw [hcnt] at *
      exact lt_of_le_of_lt (le_trans ha2 (le_max_right _ _)) hb2
    · intro v hv
      rw [issuedVersions, List.filterMap_append] at hv
      rcases List.mem_append.mp hv with h | h
      · have hb := h2 v h
        rw [hcnt] at hb
        refine ⟨by omega, ?_⟩
        exact le_trans (le_trans hb.2 (le_max_right _ _)) g3
      · have hb := g2 v h
        exact ⟨lt_of_le_of_lt (le_max_left _ _) hb.1, hb.2⟩
    · exact le_trans (le_max_left _ _) g3

/-- C1: for every pair of versions successfully issued by the oracle, if
v1 is issued before v2 in issuance order — within one epoch or across
simulated epoch transitions of a cluster run — then v1 < v2: versions
never decrease and are never reused. -/
theorem versions_strictly_monotone (durable : Nat)
    (epochs : List (Nat × List Cmd)) :
    (issuedVersions (clusterRun durable epochs).2).Pairwise (· < ·) :=
  (clusterRun_issued epochs durable).1

end GrvOracle

namespace GrvOracle

/-- Helper: in the `Fenced` state one step changes nothing and every event
it emits is a `Fenced` rejection. -/
theorem step_fenced (st : OracleState) (c : Cmd)
    (h : st.mode = OracleMode.Fenced) :
    (step st c).1 = st ∧
    ∀ ev ∈ (step st c).2, ∃ id, ev = Ev.rejected id OErr.Fenced := by
  cases c with
  | submit req =>
    refine ⟨by simp [step, h], ?_⟩
    intro ev hev
    simp [step, h] at hev
    exact ⟨req.request_id, hev⟩
  | closeWindow allow => simp [step, h]
  | renewLease ok =>
    cases ok with
    | true => simp [step]
    | false => simp [step, h]

/-- Helper: a run started in the `Fenced` state changes nothing and every
event it emits is a `Fenced` rejection. -/
theorem runOracle_fenced (cmds : List Cmd) (st : OracleState)
    (h : st.mode = OracleMode.Fenced) :
    (runOracle st cmds).1 = st ∧
    ∀ ev ∈ (runOracle st cmds).2, ∃ id, ev = Ev.rejected id OErr.Fenced := by
  induction cmds generalizing st with
  | nil => exact ⟨rfl, by simp [runOracle]⟩
  | cons c cs ih =>
    obtain ⟨h1, h2⟩ := step_fenced st c h
    obtain ⟨g1, g2⟩ := ih (step st c).1 (by rw [h1]; exact h)
    have hr : runOracle st (c :: cs) =
        ((runOracle (step st c).1 cs).1,
         (step st c).2 ++ (runOracle (step st c).1 cs).2) := rfl
    rw [hr]
    refine ⟨by rw [g1, h1], ?_⟩
    intro ev hev
    rcases List.mem_append.mp hev with hm | hm
    · exact h2 ev hm
    · exact g2 ev hm

/-- C2: the `Fenced` state is terminal — a run started fenced stays fenced
and every event it emits is a `Fenced` rejection (so no version is ever
issued and no advance succeeds after fencing) — and at the fencing
transition itself (a failed lease renewal while Serving) the oracle
becomes `Fenced` and every pending request resolves with the `Fenced`
error. -/
theorem fenced_is_terminal :
    (∀ (st : OracleState) (cmds : List Cmd),
      st.mode = OracleMode.Fenced →
        (runOracle st cmds).1.mode = OracleMode.Fenced ∧
        ∀ ev ∈ (runOracle st cmds).2,
          ∃ id, ev = Ev.rejected id OErr.Fenced) ∧
    (∀ st : OracleState, st.mode = OracleMode.Serving →
      (step st (Cmd.renewLease false)).1.mode = OracleMode.Fenced ∧
      ∀ r ∈ st.pending,
        Ev.rejected r.request_id OErr.Fenced ∈
          (step st (Cmd.renewLease false)).2) := by
  constructor
  · intro st cmds h
    obtain ⟨h1, h2⟩ := runOracle_fenced cmds st h
    exact ⟨by rw [h1]; exact h, h2⟩
  · intro st h
    have hstep : step st (Cmd.renewLease false) =
        ({ st with mode := OracleMode.Fenced, pending := [] },
         Ev.fencedNow ::
           st.pending.map (fun r => Ev.rejected r.request_id OErr.Fenced)) := by
      simp [step, h]
    rw [hstep]
    refine ⟨rfl, ?_⟩
    intro r hr
    exact List.mem_cons_of_mem _ (List.mem_map_of_mem _ hr)

/-- Witness for C2: a fenced oracle given a fresh request stays fenced and
only emits `Fenced` rejections; a serving oracle with one pending request
fences on a failed renewal and rejects that request with `Fenced`. -/
theorem fenced_is_terminal_witness :
    ((runOracle ⟨OracleMode.Fenced, 5, []⟩ [Cmd.submit ⟨1, 0⟩]).1.mode =
        OracleMode.Fenced ∧
      ∀ ev ∈ (runOracle ⟨OracleMode.Fenced, 5, []⟩ [Cmd.submit ⟨1, 0⟩]).2,
        ∃ id, ev = Ev.rejected id OErr.Fenced) ∧
    ((step ⟨OracleMode.Serving, 5, [⟨1, 0⟩]⟩ (Cmd.renewLease false)).1.mode =
        OracleMode.Fenced ∧
      ∀ r ∈ ([⟨1, 0⟩] : List VersionRequest),
        Ev.rejected r.request_id OErr.Fenced ∈
          (step ⟨OracleMode.Serving, 5, [⟨1, 0⟩]⟩ (Cmd.renewLease false)).2) :=
  ⟨fenced_is_terminal.1 ⟨OracleMode.Fenced, 5, []⟩ [Cmd.submit ⟨1, 0⟩] rfl,
   fenced_is_terminal.2 ⟨OracleMode.Serving, 5, [⟨1, 0⟩]⟩ rfl⟩

/-- C3: when a batching window holding a non-empty batch closes with
admission granted, the trace of that step contains exactly one `advanced`
event, its span is the batch size, and every request of the batch resolves
with a version drawn from the returned inclusive range. -/
theorem batch_single_advance_all_resolved :
    ∀ st : OracleState, st.mode = OracleMode.Serving → st.pending ≠ [] →
      (step st (Cmd.closeWindow true)).2.countP isAdvanceEv = 1 ∧
      Ev.advanced st.pending.length
          ⟨st.counter + 1, st.counter + st.pending.length⟩ ∈
        (step st (Cmd.closeWindow true)).2 ∧
      ∀ r ∈ st.pending, ∃ v,
        Ev.resolved r.request_id v ∈ (step st (Cmd.closeWindow true)).2 ∧
        st.counter + 1 ≤ v ∧ v ≤ st.counter + st.pending.length := by
  intro st hm hp
  have hne : st.pending.isEmpty = false := by
    cases hpd : st.pending with
    | nil => exact absurd hpd hp
    | cons a l => rfl
  have hstep : step st (Cmd.closeWindow true) =
      ({ st with counter := st.counter + st.pending.length, pending := [] },
       Ev.advanced st.pending.length
           ⟨st.counter + 1, st.counter + st.pending.length⟩ ::
         resolveSlots st.counter st.pending) := by
    simp [step, hm, hne]
  rw [hstep]
  refine ⟨?_, List.mem_cons_self _ _, ?_⟩
  · simp [List.countP_cons, isAdvanceEv, resolveSlots_no_advance]
  · intro r hr
    obtain ⟨v, hv, h1, h2⟩ := resolveSlots_mem st.pending st.counter r hr
    exact ⟨v, List.mem_cons_of_mem _ hv, h1, h2⟩

/-- Witness for C3: two requests in one window yield a single `advance(2)`
and both resolve with versions from the returned range 101..102. -/
theorem batch_single_advance_all_resolved_witness :
    (step ⟨OracleMode.Serving, 100, [⟨1, 0⟩, ⟨2, 0⟩]⟩
        (Cmd.closeWindow true)).2.countP isAdvanceEv = 1 ∧
    Ev.advanced 2 ⟨101, 102⟩ ∈
      (step ⟨OracleMode.Serving, 100, [⟨1, 0⟩, ⟨2, 0⟩]⟩
        (Cmd.closeWindow true)).2 ∧
    ∀ r ∈ ([⟨1, 0⟩, ⟨2, 0⟩] : List VersionRequest), ∃ v,
      Ev.resolved r.request_id v ∈
        (step ⟨OracleMode.Serving, 100, [⟨1, 0⟩, ⟨2, 0⟩]⟩
          (Cmd.closeWindow true)).2 ∧
      101 ≤ v ∧ v ≤ 102 :=
  batch_single_advance_all_resolved
    ⟨OracleMode.Serving, 100, [⟨1, 0⟩, ⟨2, 0⟩]⟩ rfl (by decide)

end GrvOracle

namespace GrvOracle

/-- C9: when the Rate Governor denies admission, closing the window
performs no `advance` and drops no request — the step leaves the state and
trace untouched — and once admission resumes every delayed request
resolves with a version. -/
theorem paced_delay_no_drop :
    (∀ st : OracleState, st.mode = OracleMode.Serving →
      step st (Cmd.closeWindow false) = (st, [])) ∧
    (∀ st : OracleState, st.mode = OracleMode.Serving →
      ∀ r ∈ st.pending, ∃ v,
        Ev.resolved r.request_id v ∈
          (runOracle st [Cmd.closeWindow false, Cmd.closeWindow true]).2) := by
  constructor
  · intro st h
    simp [step, h]
  · intro st h r hr
    have hp : st.pending ≠ [] := by
      intro hnil
      rw [hnil] at hr
      cases hr
    have hne : st.pending.isEmpty = false := by
      cases hpd : st.pending with
      | nil => exact absurd hpd hp
      | cons a l => rfl
    have h0 : step st (Cmd.closeWindow false) = (st, []) := by
      simp [step, h]
    have h1 : step st (Cmd.closeWindow true) =
        ({ st with counter := st.counter + st.pending.length, pending := [] },
         Ev.advanced st.pending.length
             ⟨st.counter + 1, st.counter + st.pending.length⟩ ::
           resolveSlots st.counter st.pending) := by
      simp [step, h, hne]
    obtain ⟨v, hv, _, _⟩ := resolveSlots_mem st.pending st.counter r hr
    refine ⟨v, ?_⟩
    have htr : (runOracle st [Cmd.closeWindow false, Cmd.closeWindow true]).2 =
        (step st (Cmd.closeWindow false)).2 ++
          ((step (step st (Cmd.closeWindow false)).1
            (Cmd.closeWindow true)).2 ++ []) := rfl
    rw [htr, h0]
    simp only [List.append_nil, List.nil_append, h1]
    exact List.mem_cons_of_mem _ hv

/-- Witness for C9: with one pending request and admission denied, the
step is a no-op; after admission resumes the request resolves. -/
theorem paced_delay_no_drop_witness :
    step ⟨OracleMode.Serving, 100, [⟨1, 0⟩]⟩ (Cmd.closeWindow false) =
      (⟨OracleMode.Serving, 100, [⟨1, 0⟩]⟩, []) ∧
    ∀ r ∈ ([⟨1, 0⟩] : List VersionRequest), ∃ v,
      Ev.resolved r.request_id v ∈
        (runOracle ⟨OracleMode.Serving, 100, [⟨1, 0⟩]⟩
          [Cmd.closeWindow false, Cmd.closeWindow true]).2 :=
  ⟨paced_delay_no_drop.1 ⟨OracleMode.Serving, 100, [⟨1, 0⟩]⟩ rfl,
   paced_delay_no_drop.2 ⟨OracleMode.Serving, 100, [⟨1, 0⟩]⟩ rfl⟩

end GrvOracle

namespace MainProg

/-- C10: `main` first calls `fdbserver::grv_master::foo()` and then awaits
`flow::hello()`; if `hello` returns Ok, `main` prints
"Goodbye, cruel world!" and returns Ok(()); if `hello` returns an error,
`main` returns that error and the message is never printed. -/
theorem main_sequence_and_result :
    ∀ (ε : Type) (r : Except ε Unit),
      (mainRun r).2.take 2 = [MainEv.callFoo, MainEv.awaitHello] ∧
      (r = Except.ok () →
        (mainRun r).1 = Except.ok () ∧
        MainEv.printed "Goodbye, cruel world!" ∈ (mainRun r).2) ∧
      (∀ e : ε, r = Except.error e →
        (mainRun r).1 = Except.error e ∧
        MainEv.printed "Goodbye, cruel world!" ∉ (mainRun r).2) := by
  intro ε r
  cases r with
  | ok u =>
    cases u
    refine ⟨rfl, fun _ => ⟨rfl, by simp [mainRun]⟩, ?_⟩
    intro e he
    exact absurd he (by simp)
  | error e =>
    refine ⟨rfl, ?_, ?_⟩
    · intro he
      exact absurd he (by simp)
    · intro e2 he
      have : e = e2 := by
        injection he
      subst this
      exact ⟨rfl, by simp [mainRun]⟩

/-- Witness for C10: with `hello` succeeding, `main` returns Ok and the
farewell is printed; with `hello` failing, the error propagates and the
farewell is never printed. -/
theorem main_sequence_and_result_witness :
    ((mainRun (Except.ok () : Except Unit Unit)).1 = Except.ok () ∧
      MainEv.printed "Goodbye, cruel world!" ∈
        (mainRun (Except.ok () : Except Unit Unit)).2) ∧
    ((mainRun (Except.error () : Except Unit Unit)).1 = Except.error () ∧
      MainEv.printed "Goodbye, cruel world!" ∉
        (mainRun (Except.error () : Except Unit Unit)).2) :=
  ⟨(main_sequence_and_result Unit (Except.ok ())).2.1 rfl,
   (main_sequence_and_result Unit (Except.error ())).2.2 () rfl⟩

end MainProg
